import Mathlib

/-!
Verification of the reddit_crypto ETL pipeline.

The development shallowly embeds the pipeline's dataframe transforms as
executable Lean functions over lists:

* hourly timestamps are `Nat` (hours since an arbitrary epoch);
* float cells are `Rat`; a cell that pandas would hold as NaN is `none`
  in an `Option Rat` (respectively a whole missing row is `none` in an
  `Option` of the row type);
* a dataframe indexed by timestamps is a `List (Nat × row)` in index order;
* fallible steps (pandas operations that raise) return `Option`/are modelled
  by an explicit outcome type.

Each section names its definitions after the Python function it embeds.
-/

namespace RedditCrypto

/-! ## Generic string helpers (modelled at character-list level) -/

/-- Python's `str.lower()`, as the character list of the result. -/
def lowerChars (s : String) : List Char :=
  s.data.map Char.toLower

/-- Boolean substring test on character lists: Python's `pat in s`. -/
def isSubstrChars (pat s : List Char) : Bool :=
  (List.range (s.length + 1)).any fun i => pat.isPrefixOf (s.drop i)

/-- Case-insensitive substring test: pandas `str.contains(pat, case=False)`,
both sides lowercased. -/
def containsCI (pat s : String) : Bool :=
  isSubstrChars (lowerChars pat) (lowerChars s)

/-! ## `src/acquisition/fetch_reddit.py` — keyword tagger -/

/-- Embeds `get_mentioned_crypto(text, keywords)`: walk the keyword mapping in
insertion order, appending each symbol one of whose keywords is a substring of
the lowercased text; return `None` (here `none`) when nothing matched. -/
def get_mentioned_crypto (text : String) (keywords : List (String × List String)) :
    Option (List String) :=
  let text_lower := lowerChars text
  let mentioned := keywords.foldl
    (fun acc kv => if kv.2.any (fun k => isSubstrChars k.data text_lower) then acc ++ [kv.1]
      else acc) []
  if mentioned.isEmpty then none else some mentioned

/-- The keyword map of `config.KEYWORDS` / `fetch_reddit.KEYWORDS`. -/
def KEYWORDS : List (String × List String) :=
  [("BTC", ["bitcoin", "btc"]), ("ETH", ["ethereum", "eth", "ether"])]

/-! ## `src/processing/clean_reddit_data.py` — post cleaner -/

/-- A raw Reddit post restricted to the fields the cleaner inspects.
`body` is `none` when the dataframe cell is NaN (absent selftext). -/
structure RedditPost where
  post_id : Nat
  title : String
  body : Option String
deriving DecidableEq, Repr

/-- Rule 1 predicate of `clean_and_save_reddit_data`:
pandas `df['body'].isin(['[removed]', '[deleted]'])` — an exact, case-sensitive
membership test; a NaN body is not in the list, hence not a match. -/
def isRemovedBody (body : Option String) : Bool :=
  match body with
  | some b => b == "[removed]" || b == "[deleted]"
  | none => false

/-- Rule 2 predicate: `title.str.contains('http', case=False, na=False)` or
`body.fillna('').str.contains('http', case=False, na=False)`. -/
def containsUrl (p : RedditPost) : Bool :=
  containsCI "http" p.title || containsCI "http" (p.body.getD "")

/-- Embeds the filtering core of `clean_and_save_reddit_data`: first drop the
`[removed]`/`[deleted]` bodies, then drop any post containing `http` in its
title or (NaN-as-empty) body. -/
def clean_and_save_reddit_data (posts : List RedditPost) : List RedditPost :=
  let afterRemoved := posts.filter fun p => !(isRemovedBody p.body)
  afterRemoved.filter fun p => !(containsUrl p)

/-- A post whose body is exactly the `[removed]` sentinel. -/
def postRemoved : RedditPost := ⟨1, "a plain title", some "[removed]"⟩

/-- A post whose title contains a URL. -/
def postUrl : RedditPost := ⟨2, "see http://example.com for more", some "plain body"⟩

/-- A post with neither a sentinel body nor a URL. -/
def postClean : RedditPost := ⟨3, "a plain title", some "plain body"⟩

/-- A post whose body matches the removed sentinel case-insensitively but not
exactly: the coded `isin` test does not drop it. -/
def postRemovedMixedCase : RedditPost := ⟨4, "a plain title", some "[Removed]"⟩

/-! ## `src/processing/clean_market_data.py` — market cleaner

An OHLCV frame is a `List (Nat × Option Bar)` in index order: `Nat` is the
hour, and a row is `none` where every cell of the pandas row is NaN (rows are
modelled all-or-nothing; the pipeline never produces partially-NaN bars). -/

/-- One OHLCV bar. `open_` is the `open` column (renamed: `open` is a Lean
keyword). -/
structure Bar where
  open_ : Rat
  high : Rat
  low : Rat
  close : Rat
  volume : Rat
deriving DecidableEq, Repr

/-- A timestamp-indexed OHLCV dataframe. -/
abbrev MarketFrame := List (Nat × Option Bar)

/-- The timestamp index of a keyed frame. -/
def keys {α : Type} (df : List (Nat × α)) : List Nat := df.map Prod.fst

/-- Value of the first row carrying key `h` (pandas positional lookup into a
possibly-duplicated index). -/
def lookupKey {α : Type} (df : List (Nat × α)) (h : Nat) : Option α :=
  (df.find? fun r => r.1 == h).map Prod.snd

/-- Forward fill over rows: `df.ffill()`, carrying the last non-NaN row. -/
def ffillRows : Option Bar → MarketFrame → MarketFrame
  | _, [] => []
  | last, (h, ob) :: rest =>
      let v := match ob with | some b => some b | none => last
      (h, v) :: ffillRows v rest

/-- Step 1 core of `clean_and_save_market_data`:
`df.reindex(pd.date_range(df.index.min(), df.index.max(), freq='1h')).ffill()`.
Hours of the full range absent from the index become NaN rows, then `ffill`
closes the gaps. -/
def reindex_ffill (df : MarketFrame) : MarketFrame :=
  match (keys df).min?, (keys df).max? with
  | some lo, some hi =>
      ffillRows none ((List.range' lo (hi + 1 - lo)).map fun h => (h, (lookupKey df h).join))
  | _, _ => []

/-- Step 1 with its failure modes: `pd.date_range` raises on an empty index
(`min()`/`max()` are NaT) and `DataFrame.reindex` raises
`ValueError: cannot reindex on an axis with duplicate labels` when the index
has duplicates. `none` models the raised exception. -/
def reindexStep? (df : MarketFrame) : Option MarketFrame :=
  if df.isEmpty then none
  else if (keys df).Nodup then some (reindex_ffill df) else none

/-- Helper for `dedupKeepFirst`: drop rows whose key was already seen. -/
def dedupAux {α : Type} (seen : List Nat) : List (Nat × α) → List (Nat × α)
  | [] => []
  | (h, v) :: rest =>
      if seen.contains h then dedupAux seen rest
      else (h, v) :: dedupAux (h :: seen) rest

/-- Step 2: `df[~df.index.duplicated(keep='first')]`. -/
def dedupKeepFirst {α : Type} (df : List (Nat × α)) : List (Nat × α) :=
  dedupAux [] df

/-- Step 3 predicate: `df['close'] > 0`; a NaN close compares `False`. -/
def validClose (r : Nat × Option Bar) : Bool :=
  match r.2 with
  | some b => decide (0 < b.close)
  | none => false

/-- The OHLC-invalidity mask of step 4. -/
def invalid_ohlc (b : Bar) : Bool :=
  decide (b.high < b.low) || decide (b.high < b.open_) || decide (b.high < b.close) ||
    decide (b.low > b.open_) || decide (b.low > b.close)

/-- Step 4 predicate: keep `~invalid_ohlc`; on a NaN row every comparison in
the mask is `False`, so the row is kept. -/
def keepOhlc (r : Nat × Option Bar) : Bool :=
  match r.2 with
  | some b => !(invalid_ohlc b)
  | none => true

/-- Embeds the cleaning core of `clean_and_save_market_data`: reindex to the
full hourly range and forward-fill (raising on an empty or duplicated index),
drop duplicate timestamps keeping the first, drop rows with `close <= 0`, drop
rows with invalid OHLC ordering. `none` models an uncaught exception; the
zero-volume census (step 5) only prints and is omitted. -/
def clean_and_save_market_data (df : MarketFrame) : Option MarketFrame :=
  match reindexStep? df with
  | none => none
  | some step1 =>
      let step2 := dedupKeepFirst step1
      let step3 := step2.filter validClose
      let step4 := step3.filter keepOhlc
      some step4

/-- Boolean check that each key is the predecessor's successor. -/
def hourlyContiguousB : List Nat → Bool
  | [] => true
  | [_] => true
  | a :: b :: rest => (b == a + 1) && hourlyContiguousB (b :: rest)

/-- Keys in consecutive-hour progression: the spec's "consecutive timestamps
differ by exactly one hour". -/
def hourlyContiguous (ks : List Nat) : Prop :=
  hourlyContiguousB ks = true

instance (ks : List Nat) : Decidable (hourlyContiguous ks) :=
  inferInstanceAs (Decidable (hourlyContiguousB ks = true))

/-- A bar every cleaning filter accepts. -/
def goodBar : Bar := ⟨1, 1, 1, 1, 1⟩

/-- A bar with negative close but OHLC-consistent fields: step 3 drops it,
step 4 alone would not. -/
def badCloseBar : Bar := ⟨-1, -1, -1, -1, 0⟩

/-- Raw series whose middle bar fails the close-price filter: cleaning leaves
hours 0 and 2 with a reopened gap at hour 1. -/
def gapInput : MarketFrame :=
  [(0, some goodBar), (1, some badCloseBar), (2, some goodBar)]

/-- The cleaned form of `gapInput`. -/
def gapOutput : MarketFrame := [(0, some goodBar), (2, some goodBar)]

/-! ## `src/preprocessing/unify_data.py` — time-series unifier

Scored posts carry hour-granularity UTC timestamps (the `resample('1h')`
bucket). Market frames here are the cleaned per-asset series, with bars taken
as fully populated rows; index misalignment between the two assets is what
introduces `none` cells during the outer join. -/

/-- A sentiment-scored post as read from `sentiment_data.parquet`. -/
structure ScoredPost where
  post_id : Nat
  timestamp_utc : Nat
  sentiment_score : Rat
  mentioned_crypto : List String
deriving DecidableEq, Repr

/-- Step 1: `sentiment_df.explode('mentioned_crypto')` — one
(symbol, hour, score) row per mentioned symbol of each post. -/
def explodeRows (posts : List ScoredPost) : List (String × Nat × Rat) :=
  posts.flatMap fun p => p.mentioned_crypto.map fun c => (c, p.timestamp_utc, p.sentiment_score)

/-- The exploded rows of one symbol's group in `groupby('mentioned_crypto')`. -/
def cryptoRows (posts : List ScoredPost) (c : String) : List (String × Nat × Rat) :=
  (explodeRows posts).filter fun r => r.1 == c

/-- One symbol's exploded rows falling in the hour bucket `h`. -/
def hourRows (posts : List ScoredPost) (c : String) (h : Nat) : List (String × Nat × Rat) :=
  (cryptoRows posts c).filter fun r => r.2.1 == h

/-- Step 2 cell: `groupby('mentioned_crypto').resample('1h')` aggregate for
symbol `c` at hour `h`. `none` when `h` lies outside the group's resampled
span (or the group is empty): the pivot then has no row/cell there. Inside the
span the cell holds the mean score (`none` for an empty bucket, as pandas
`mean` of nothing is NaN) and the post count. -/
def aggCell (posts : List ScoredPost) (c : String) (h : Nat) : Option (Option Rat × Nat) :=
  let hrs := (cryptoRows posts c).map fun r => r.2.1
  match hrs.min?, hrs.max? with
  | some lo, some hi =>
      if lo ≤ h ∧ h ≤ hi then
        let g := hourRows posts c h
        some
          (if g.isEmpty then none else some (((g.map fun r => r.2.2).sum) / (g.length : Rat)),
            g.length)
      else none
  | _, _ => none

/-- Steps 6-7 on one sentiment cell: left-join miss or NaN mean becomes `0`
via `master_df[sentiment_columns].fillna(0)`. Returns
(sentiment_mean, post_count) as the master table stores them. -/
def sentCellFilled (posts : List ScoredPost) (c : String) (h : Nat) : Rat × Rat :=
  match aggCell posts c h with
  | none => (0, 0)
  | some (m, n) => (m.getD 0, (n : Rat))

/-- The claim's direct description of a master sentiment cell, stated without
the resample/pivot/join plumbing: the mean score and count over the exploded
rows of symbol `c` in hour `h`, both zero when there are none ("real aggregate
or zero"). Compared against `sentCellFilled` in claim C1. -/
def specSentimentAggregate (posts : List ScoredPost) (c : String) (h : Nat) : Rat × Rat :=
  let g := hourRows posts c h
  (if g.isEmpty then 0 else ((g.map fun r => r.2.2).sum) / (g.length : Rat), (g.length : Rat))

/-- One row of the master hourly table, with btc/eth bar columns and filled
sentiment aggregate columns. -/
structure MasterRow where
  btc : Option Bar
  eth : Option Bar
  btc_sentiment_mean : Rat
  btc_post_count : Rat
  eth_sentiment_mean : Rat
  eth_post_count : Rat
deriving DecidableEq, Repr

/-- Step 4: `btc_df.add_prefix('btc_').join(eth_df.add_prefix('eth_'),
how='outer')` — the sorted union of the two hourly indexes, with `none` on
the side missing an hour. -/
def mergeOuter : List (Nat × Bar) → List (Nat × Bar) → List (Nat × Option Bar × Option Bar)
  | [], es => es.map fun e => (e.1, none, some e.2)
  | b :: bs', es =>
      ((es.filter fun e => decide (e.1 < b.1)).map fun e => (e.1, none, some e.2)) ++
        (b.1, some b.2, (es.find? fun e => e.1 == b.1).map Prod.snd) ::
          mergeOuter bs' (es.filter fun e => decide (b.1 < e.1))

/-- One row of steps 5-7: the outer-joined market row of one hour extended
with the zero-filled sentiment cells of that hour. Symbols are the uppercase
`mentioned_crypto` tags ("BTC"/"ETH") whose lowercase forms prefix the master
columns. -/
def mkMasterRow (posts : List ScoredPost) (r : Nat × Option Bar × Option Bar) :
    Nat × MasterRow :=
  (r.1,
    { btc := r.2.1, eth := r.2.2,
      btc_sentiment_mean := (sentCellFilled posts "BTC" r.1).1,
      btc_post_count := (sentCellFilled posts "BTC" r.1).2,
      eth_sentiment_mean := (sentCellFilled posts "ETH" r.1).1,
      eth_post_count := (sentCellFilled posts "ETH" r.1).2 })

/-- Steps 5-7: left-join the pivoted sentiment onto the market index (hours
with no pivot row keep the market row) and zero-fill the sentiment columns. -/
def joinSentiment (posts : List ScoredPost) (mkt : List (Nat × Option Bar × Option Bar)) :
    List (Nat × MasterRow) :=
  mkt.map (mkMasterRow posts)

/-- Step 8: `master_df.ffill(inplace=True)` — per-column forward fill. The
sentiment columns were already zero-filled, so only the price columns change;
the two accumulators carry the last non-null btc and eth bars. -/
def ffillMaster (lb le : Option Bar) : List (Nat × MasterRow) → List (Nat × MasterRow)
  | [] => []
  | (h, row) :: rest =>
      let b := match row.btc with | some x => some x | none => lb
      let e := match row.eth with | some x => some x | none => le
      (h, { row with btc := b, eth := e }) :: ffillMaster b e rest

/-- Embeds the dataframe core of `unify_and_save_data` (loading, timezone
normalisation and persistence aside): outer-join the two price series, left-
join the hourly sentiment aggregate, zero-fill sentiment, forward-fill
prices. -/
def unify_and_save_data (btc_df eth_df : List (Nat × Bar)) (posts : List ScoredPost) :
    List (Nat × MasterRow) :=
  ffillMaster none none (joinSentiment posts (mergeOuter btc_df eth_df))

/-- A bar with price level `n`. -/
def flatBar (n : Nat) : Bar := ⟨n, n, n, n, 1⟩

/-- An 11-hour price series over hours 0-10. -/
def exSeries11 : List (Nat × Bar) := (List.range 11).map fun h => (h, flatBar (h + 1))

/-- Scored posts at hours 2 and 7 only, each mentioning both assets. -/
def exPosts27 : List ScoredPost :=
  [⟨10, 2, 1/2, ["BTC", "ETH"]⟩, ⟨11, 7, -1/4, ["BTC", "ETH"]⟩]

/-- A btc series over hours 0-1, for the non-overlapping-history example. -/
def lateBtc : List (Nat × Bar) := [(0, flatBar 1), (1, flatBar 1)]

/-- An eth series starting only at hour 1. -/
def lateEth : List (Nat × Bar) := [(1, flatBar 2)]

/-- A post at hour 1 mentioning both assets, making both sentiment column
pairs exist. -/
def latePosts : List ScoredPost := [⟨1, 1, 1, ["BTC", "ETH"]⟩]

/-! ## `src/analysis/correlation_analysis.py` — correlation sweep

Master-table columns are positional series (`List (Option Rat)`, index
position = hour row of the contiguous master index); `none` is a NaN cell.
`pct_change` is modelled without the deprecated implicit forward-fill
(irrelevant here: master price columns have no interior NaN). The external
`scipy.stats` coefficient functions are parameters. Rational division by a
zero price is the `Rat` junk value where pandas would produce `inf`; cleaned
closes are positive so neither side arises on pipeline data. -/

/-- Cell of a positional series: NaN both out of range and on a stored NaN. -/
def cell (s : List (Option Rat)) (i : Nat) : Option Rat :=
  (s.get? i).join

/-- Pandas `Series.pct_change(periods=n)`: value at `i` is
`(s[i] - s[i-n]) / s[i-n]`, NaN for `i < n` or when either operand is NaN. -/
def pct_change (periods : Nat) (p : List (Option Rat)) : List (Option Rat) :=
  (List.range p.length).map fun i =>
    if periods ≤ i then
      match cell p (i - periods), cell p i with
      | some a, some b => some ((b - a) / a)
      | _, _ => none
    else none

/-- Pandas `Series.shift(-n)`: value at `i` comes from `i + n`. -/
def shiftBack (periods : Nat) (s : List (Option Rat)) : List (Option Rat) :=
  (List.range s.length).map fun i => cell s (i + periods)

/-- Pandas `Series.shift(n)` for `n ≥ 0`: value at `i` comes from `i - n`. -/
def shiftFwd (periods : Nat) (s : List (Option Rat)) : List (Option Rat) :=
  (List.range s.length).map fun i => if periods ≤ i then cell s (i - periods) else none

/-- Pandas `Series.rolling(window=w, min_periods=1).mean()`: mean of the
non-NaN values among the trailing `w` positions ending at `i`, NaN when that
set is empty. -/
def rollingMeanMin1 (window : Nat) (s : List (Option Rat)) : List (Option Rat) :=
  (List.range s.length).map fun i =>
    let vals := (List.range' (i + 1 - window) (min window (i + 1))).filterMap fun j => cell s j
    if vals.isEmpty then none else some (vals.sum / (vals.length : Rat))

/-- `df[price_col].pct_change(periods=horizon).shift(-horizon)`. -/
def future_return (horizon : Nat) (p : List (Option Rat)) : List (Option Rat) :=
  shiftBack horizon (pct_change horizon p)

/-- `pd.concat([a, b], axis=1).dropna()`: the paired rows where both series
are defined. -/
def dropna2 (a b : List (Option Rat)) : List (Rat × Rat) :=
  (a.zip b).filterMap fun r =>
    match r.1, r.2 with
    | some x, some y => some (x, y)
    | _, _ => none

/-- The sweep's parameter grids. -/
def PRICE_HORIZONS : List Nat := [1, 4, 6, 12, 24, 72, 168]

/-- Rolling windows of the sweep. -/
def SENTIMENT_WINDOWS : List Nat := [1, 4, 6, 12, 24, 72, 168]

/-- Lags of the sweep. -/
def LAGS : List Nat := [0, 1, 2, 4, 6, 12]

/-- The four master-table columns the sweep reads. -/
structure MasterCols where
  btc_close : List (Option Rat)
  eth_close : List (Option Rat)
  btc_sentiment_mean : List (Option Rat)
  eth_sentiment_mean : List (Option Rat)

/-- Column `f'{crypto}_close'` (the sweep only ever asks for btc or eth). -/
def price_col (cols : MasterCols) (crypto : String) : List (Option Rat) :=
  if crypto = "btc" then cols.btc_close else cols.eth_close

/-- Column `f'{crypto}_sentiment_mean'`. -/
def sentiment_col (cols : MasterCols) (crypto : String) : List (Option Rat) :=
  if crypto = "btc" then cols.btc_sentiment_mean else cols.eth_sentiment_mean

/-- One row of `correlation_results.csv`. -/
structure CorrResult where
  crypto : String
  price_horizon_h : Nat
  sentiment_window_h : Nat
  lag_h : Nat
  pearson_corr : Rat
  pearson_p_value : Rat
  spearman_corr : Rat
  spearman_p_value : Rat
  n_observations : Nat

/-- The `temp_df` of one grid point: lagged rolling sentiment paired with the
future return, NaN rows dropped. -/
def pairedSample (cols : MasterCols) (crypto : String) (horizon window lag : Nat) :
    List (Rat × Rat) :=
  dropna2 (shiftFwd lag (rollingMeanMin1 window (sentiment_col cols crypto)))
    (future_return horizon (price_col cols crypto))

/-- Embeds the sweep loop of `run_correlation_sweep`: for each asset and each
(horizon, window, lag) in grid order, emit a result row unless the paired
sample is smaller than 50. `pearsonr`/`spearmanr` are the external scipy
statistics, passed as pure functions returning (coefficient, p-value). -/
def run_correlation_sweep (pearsonr spearmanr : List (Rat × Rat) → Rat × Rat)
    (cols : MasterCols) : List CorrResult :=
  ["btc", "eth"].flatMap fun crypto =>
    PRICE_HORIZONS.flatMap fun horizon =>
      SENTIMENT_WINDOWS.flatMap fun window =>
        LAGS.filterMap fun lag =>
          let temp := pairedSample cols crypto horizon window lag
          if temp.length < 50 then none
          else
            some
              { crypto := crypto, price_horizon_h := horizon, sentiment_window_h := window,
                lag_h := lag, pearson_corr := (pearsonr temp).1,
                pearson_p_value := (pearsonr temp).2, spearman_corr := (spearmanr temp).1,
                spearman_p_value := (spearmanr temp).2, n_observations := temp.length }

/-! ## Stage-level control flow (missing-input behaviour)

A file system is a partial map from paths to parsed frames; `none` is an
absent file. `StageResult` records how a stage invocation ends. -/

/-- Outcome of one pipeline stage call. -/
inductive StageResult where
  | completed
  | skipped
  | raised
deriving DecidableEq, Repr

/-- Control flow of `clean_and_save_market_data` around its load: the
`os.path.exists` guard reports and returns (`skipped`) on a missing file;
an exception from the cleaning core propagates (`raised`). -/
def clean_market_stage (fs : String → Option MarketFrame) (input_path : String) : StageResult :=
  match fs input_path with
  | none => StageResult.skipped
  | some df =>
      match clean_and_save_market_data df with
      | none => StageResult.raised
      | some _ => StageResult.completed

/-- Control flow of `run_correlation_sweep` around its load: the source calls
`pd.read_parquet(data_path)` with no existence guard, so a missing master
file raises `FileNotFoundError` out of the stage. -/
def run_correlation_sweep_stage (pearsonr spearmanr : List (Rat × Rat) → Rat × Rat)
    (fs : String → Option MasterCols) (data_path : String) :
    StageResult × Option (List CorrResult) :=
  match fs data_path with
  | none => (StageResult.raised, none)
  | some cols => (StageResult.completed, some (run_correlation_sweep pearsonr spearmanr cols))

/-! ## `main.py` — pipeline entry point -/

/-- The stage names recognised by `main`, in the order its four `if` blocks
appear. -/
def pipelineStageNames : List String := ["acquire", "clean", "process", "analyze"]

/-- Embeds the dispatch logic of `main()`: with no stage arguments every stage
runs, otherwise exactly the recognised stages mentioned run, in fixed order.
The body of `main` has no branch reporting an unrecognised name (argparse's
`nargs='*'` positional accepts any strings), so the returned list of executed
stages is the entry point's entire observable effect. -/
def main (stages : List String) : List String :=
  let run_all := stages.isEmpty
  pipelineStageNames.filter fun s => run_all || stages.contains s

/-! ## Lemmas about the market cleaner -/

theorem keys_ffillRows : ∀ (last : Option Bar) (l : MarketFrame),
    keys (ffillRows last l) = keys l
  | _, [] => rfl
  | _, (h, ob) :: rest => by
      simp only [ffillRows, keys, List.map_cons, List.cons.injEq, true_and]
      exact keys_ffillRows _ rest

theorem ffillRows_all_some : ∀ (last : Option Bar) (l : MarketFrame),
    (∀ r ∈ l, r.2.isSome) → ffillRows last l = l
  | _, [], _ => rfl
  | last, (h, ob) :: rest, hs => by
      have h1 : ob.isSome := hs (h, ob) (List.mem_cons_self _ _)
      obtain ⟨b, rfl⟩ := Option.isSome_iff_exists.mp h1
      simp only [ffillRows, List.cons.injEq, true_and]
      exact ffillRows_all_some (some b) rest fun r hr => hs r (List.mem_cons_of_mem _ hr)

theorem keys_reindex_map (df : MarketFrame) (lo n : Nat) :
    keys ((List.range' lo n).map fun h => (h, (lookupKey df h).join)) = List.range' lo n := by
  simp only [keys, List.map_map]
  exact List.map_id _

theorem keys_reindex_ffill (df : MarketFrame) :
    ∃ lo n, keys (reindex_ffill df) = List.range' lo n := by
  unfold reindex_ffill
  rcases h1 : (keys df).min? with _ | lo
  · exact ⟨0, 0, rfl⟩
  rcases h2 : (keys df).max? with _ | hi
  · exact ⟨0, 0, rfl⟩
  exact ⟨lo, hi + 1 - lo, by rw [keys_ffillRows, keys_reindex_map]⟩

theorem dedupAux_eq_self {α : Type} : ∀ (l : List (Nat × α)) (seen : List Nat),
    (keys l).Nodup → (∀ k ∈ keys l, k ∉ seen) → dedupAux seen l = l
  | [], _, _, _ => rfl
  | (h, v) :: rest, seen, hnd, hseen => by
      have hh : seen.contains h = false := by simpa using hseen h (by simp [keys])
      have hnd' : (keys rest).Nodup ∧ h ∉ keys rest := by
        have := hnd
        simp only [keys, List.map_cons, List.nodup_cons] at this
        exact ⟨this.2, this.1⟩
      simp only [dedupAux, hh, Bool.false_eq_true, if_false, List.cons.injEq, true_and]
      refine dedupAux_eq_self rest (h :: seen) hnd'.1 fun k hk => ?_
      have hks : k ∉ seen := hseen k (by simp [keys] at hk ⊢; exact Or.inr hk)
      have hkh : k ≠ h := fun he => hnd'.2 (he ▸ hk)
      simp [hkh, hks]

theorem dedupKeepFirst_eq_self {α : Type} (l : List (Nat × α)) (hnd : (keys l).Nodup) :
    dedupKeepFirst l = l :=
  dedupAux_eq_self l [] hnd fun k _ => List.not_mem_nil k

theorem clean_market_some_iff (df out : MarketFrame) :
    clean_and_save_market_data df = some out ↔
      df ≠ [] ∧ (keys df).Nodup ∧
        out = ((dedupKeepFirst (reindex_ffill df)).filter validClose).filter keepOhlc := by
  unfold clean_and_save_market_data reindexStep?
  rcases hdf : df.isEmpty with _ | _
  · have hne : df ≠ [] := by simpa [List.isEmpty_iff] using hdf
    by_cases hnd : (keys df).Nodup
    · simp [hdf, hnd, hne, eq_comm]
    · simp [hdf, hnd, hne]
  · have hnil : df = [] := by simpa [List.isEmpty_iff] using hdf
    simp [hdf, hnil]

theorem clean_market_mem_filters {df out : MarketFrame}
    (hc : clean_and_save_market_data df = some out) :
    ∀ r ∈ out, validClose r = true ∧ keepOhlc r = true := by
  obtain ⟨-, -, rfl⟩ := (clean_market_some_iff df out).mp hc
  intro r hr
  simp only [List.mem_filter] at hr
  exact ⟨hr.1.2, hr.2⟩

theorem row_valid_of_filters {r : Nat × Option Bar} (h3 : validClose r = true)
    (h4 : keepOhlc r = true) :
    ∃ b, r.2 = some b ∧ 0 < b.close ∧ b.low ≤ b.open_ ∧ b.open_ ≤ b.high ∧
      b.low ≤ b.close ∧ b.close ≤ b.high := by
  rcases hr : r.2 with _ | b
  · rw [validClose, hr] at h3; exact absurd h3 (by simp)
  rw [validClose, hr] at h3
  rw [keepOhlc, hr] at h4
  have hclose : 0 < b.close := by simpa using h3
  have hmask : invalid_ohlc b = false := by simpa using h4
  unfold invalid_ohlc at hmask
  rw [Bool.or_eq_false_iff] at hmask
  obtain ⟨hmask, m5⟩ := hmask
  rw [Bool.or_eq_false_iff] at hmask
  obtain ⟨hmask, m4⟩ := hmask
  rw [Bool.or_eq_false_iff] at hmask
  obtain ⟨hmask, m3⟩ := hmask
  rw [Bool.or_eq_false_iff] at hmask
  obtain ⟨m1, m2⟩ := hmask
  exact ⟨b, rfl, hclose, not_lt.mp (of_decide_eq_false m4), not_lt.mp (of_decide_eq_false m2),
    not_lt.mp (of_decide_eq_false m5), not_lt.mp (of_decide_eq_false m3)⟩

theorem clean_market_keys_sublist {df out : MarketFrame}
    (hc : clean_and_save_market_data df = some out) :
    (keys out).Sublist (keys (reindex_ffill df)) := by
  obtain ⟨-, hnd, rfl⟩ := (clean_market_some_iff df out).mp hc
  have hnd1 : (keys (reindex_ffill df)).Nodup := by
    obtain ⟨lo, n, hk⟩ := keys_reindex_ffill df
    rw [hk]; exact List.nodup_range' _ _
  rw [dedupKeepFirst_eq_self _ hnd1]
  exact List.Sublist.map Prod.fst ((List.filter_sublist _).trans (List.filter_sublist _))

theorem hourlyContiguousB_range' : ∀ (n lo : Nat), hourlyContiguousB (List.range' lo n) = true
  | 0, _ => rfl
  | 1, _ => rfl
  | n + 2, lo => by
      have ih := hourlyContiguousB_range' (n + 1) (lo + 1)
      rw [List.range'_succ]
      rw [List.range'_succ] at ih ⊢
      simp only [hourlyContiguousB, ih, Bool.and_true]
      simp

theorem contiguous_eq_range' : ∀ (ks : List Nat), hourlyContiguousB ks = true →
    ks = List.range' (ks.headD 0) ks.length
  | [], _ => rfl
  | [a], _ => rfl
  | a :: b :: rest, hc => by
      have hab : b = a + 1 := by
        simp only [hourlyContiguousB, Bool.and_eq_true, beq_iff_eq] at hc
        exact hc.1
      have hrest : hourlyContiguousB (b :: rest) = true := by
        simp only [hourlyContiguousB, Bool.and_eq_true] at hc
        exact hc.2
      have ih := contiguous_eq_range' (b :: rest) hrest
      have hlen : (a :: b :: rest).length = rest.length + 2 := by simp
      rw [hlen, List.range'_succ]
      simp only [List.headD_cons]
      rw [← hab]
      exact congrArg (a :: ·) (by simpa [hab] using ih)

theorem min?_range' : ∀ (n lo : Nat), 0 < n → (List.range' lo n).min? = some lo
  | 1, lo, _ => rfl
  | n + 2, lo, _ => by
      have ih := min?_range' (n + 1) (lo + 1) (Nat.succ_pos _)
      rw [List.range'_succ, List.min?_cons, ih]
      simp [Nat.min_def, Nat.le_succ_of_le, Nat.le_refl, Nat.le_succ]

theorem max?_range' : ∀ (n lo : Nat), 0 < n → (List.range' lo n).max? = some (lo + n - 1)
  | 1, lo, _ => rfl
  | n + 2, lo, _ => by
      have ih := max?_range' (n + 1) (lo + 1) (Nat.succ_pos _)
      rw [List.range'_succ, List.max?_cons, ih]
      simp only [Option.elim_some, Option.some.injEq]
      omega

theorem lookup_range'_map : ∀ (l : MarketFrame) (k n : Nat), keys l = List.range' k n →
    ((List.range' k n).map fun h => (h, (lookupKey l h).join)) = l
  | [], k, n, hk => by
      have : n = 0 := by
        rcases n with _ | m
        · rfl
        · rw [List.range'_succ] at hk; exact absurd hk (by simp [keys])
      subst this; rfl
  | (h0, v0) :: rest, k, n, hk => by
      rcases n with _ | m
      · exact absurd hk (by simp [keys])
      rw [List.range'_succ] at hk ⊢
      have hk0 : h0 = k ∧ keys rest = List.range' (k + 1) m := by
        simpa [keys] using hk
      obtain ⟨rfl, hkrest⟩ := hk0
      simp only [List.map_cons, List.cons.injEq]
      constructor
      · simp [lookupKey, List.find?_cons]
      · have hcong : ∀ h ∈ List.range' (h0 + 1) m,
            (h, (lookupKey ((h0, v0) :: rest) h).join) = (h, (lookupKey rest h).join) := by
          intro h hh
          have hlt : h0 < h := by
            have := (List.mem_range'_1).mp hh
            omega
          have : (h0 == h) = false := by simpa using Nat.ne_of_lt hlt
          simp [lookupKey, List.find?_cons, this]
        rw [List.map_congr_left hcong]
        exact lookup_range'_map rest (h0 + 1) m hkrest

theorem reindex_ffill_contiguous (l : MarketFrame) (hne : l ≠ [])
    (hcont : hourlyContiguous (keys l)) (hsome : ∀ r ∈ l, r.2.isSome) :
    reindex_ffill l = l := by
  have hlen : (keys l).length = l.length := by simp [keys]
  obtain ⟨k, hk0⟩ : ∃ k, keys l = List.range' k l.length :=
    ⟨(keys l).headD 0, by
      have := contiguous_eq_range' (keys l) hcont
      rwa [hlen] at this⟩
  have hpos : 0 < l.length := List.length_pos.mpr hne
  have hmin : (keys l).min? = some k := by rw [hk0]; exact min?_range' _ _ hpos
  have hmax : (keys l).max? = some (k + l.length - 1) := by rw [hk0]; exact max?_range' _ _ hpos
  unfold reindex_ffill
  rw [hmin, hmax]
  show ffillRows none
      ((List.range' k (k + l.length - 1 + 1 - k)).map fun h => (h, (lookupKey l h).join)) = l
  have harith : k + l.length - 1 + 1 - k = l.length := by omega
  rw [harith, lookup_range'_map l _ _ hk0]
  exact ffillRows_all_some none l hsome

/-! ## Claim C2 — cleaned-series invariants -/

/-- Claim C2 counterexample: a raw series whose middle bar has a negative
close is accepted by the cleaner, yet its output index {0, 2} violates the
claimed consecutive-one-hour property. -/
theorem C2_counterexample_gap :
    clean_and_save_market_data gapInput = some gapOutput ∧
      ¬ hourlyContiguous (keys gapOutput) := by
  constructor
  · decide
  · decide

/-- Claim C2 (amended): every accepted series yields an output with strictly
increasing, duplicate-free timestamps whose every row satisfies
`low ≤ open, close ≤ high` and `close > 0`; the consecutive-one-hour property
holds whenever the close-price and OHLC filters drop no row of the reindexed
forward-filled series (dropping a row reopens a gap, as the counterexample
shows). -/
theorem C2_clean_market_invariants (df out : MarketFrame)
    (hc : clean_and_save_market_data df = some out) :
    (keys out).Pairwise (· < ·) ∧ (keys out).Nodup ∧
      (∀ r ∈ out, ∃ b, r.2 = some b ∧ 0 < b.close ∧ b.low ≤ b.open_ ∧ b.open_ ≤ b.high ∧
        b.low ≤ b.close ∧ b.close ≤ b.high) ∧
      ((∀ r ∈ reindex_ffill df, validClose r = true ∧ keepOhlc r = true) →
        hourlyContiguous (keys out)) := by
  have hpair : (keys out).Pairwise (· < ·) := by
    obtain ⟨lo, n, hk⟩ := keys_reindex_ffill df
    exact List.Pairwise.sublist (clean_market_keys_sublist hc)
      (by rw [hk]; exact List.pairwise_lt_range' _ _)
  refine ⟨hpair, hpair.imp Nat.ne_of_lt, fun r hr => ?_, fun hall => ?_⟩
  · have := clean_market_mem_filters hc r hr
    exact row_valid_of_filters this.1 this.2
  · obtain ⟨-, hnd, hout⟩ := (clean_market_some_iff df out).mp hc
    obtain ⟨lo, n, hk⟩ := keys_reindex_ffill df
    have hnd1 : (keys (reindex_ffill df)).Nodup := by rw [hk]; exact List.nodup_range' _ _
    have hded : dedupKeepFirst (reindex_ffill df) = reindex_ffill df :=
      dedupKeepFirst_eq_self _ hnd1
    have hf3 : (reindex_ffill df).filter validClose = reindex_ffill df :=
      List.filter_eq_self.mpr fun r hr => (hall r hr).1
    have hf4 : (reindex_ffill df).filter keepOhlc = reindex_ffill df :=
      List.filter_eq_self.mpr fun r hr => (hall r hr).2
    rw [hout, hded, hf3, hf4, hourlyContiguous, hk]
    exact hourlyContiguousB_range' _ _

/-- Witness for C2 at a concrete accepted series. -/
theorem C2_clean_market_invariants_witness :
    (keys [((0 : Nat), some goodBar)]).Pairwise (· < ·) ∧
      (keys [((0 : Nat), some goodBar)]).Nodup ∧
      (∀ r ∈ [((0 : Nat), some goodBar)], ∃ b, r.2 = some b ∧ 0 < b.close ∧
        b.low ≤ b.open_ ∧ b.open_ ≤ b.high ∧ b.low ≤ b.close ∧ b.close ≤ b.high) ∧
      ((∀ r ∈ reindex_ffill [((0 : Nat), some goodBar)],
          validClose r = true ∧ keepOhlc r = true) →
        hourlyContiguous (keys [((0 : Nat), some goodBar)])) :=
  C2_clean_market_invariants [(0, some goodBar)] [(0, some goodBar)] (by decide)

/-! ## Claim C3 — idempotence of cleaning -/

/-- Claim C3 counterexample: re-cleaning the cleaned `gapInput` forward-fills
the reopened gap at hour 1, so the second pass returns a strictly longer
series than the first. -/
theorem C3_counterexample_not_idempotent :
    clean_and_save_market_data gapInput = some gapOutput ∧
      clean_and_save_market_data gapOutput =
        some [(0, some goodBar), (1, some goodBar), (2, some goodBar)] ∧
      [((0 : Nat), some goodBar), (1, some goodBar), (2, some goodBar)] ≠ gapOutput := by
  refine ⟨by decide, by decide, by decide⟩

/-- Claim C3 (amended): cleaning is idempotent on every input whose cleaned
output is nonempty and gap-free (consecutive hourly timestamps); when the
validity filters reopen an interior gap, re-cleaning forward-fills it and the
results differ, as the counterexample shows. -/
theorem C3_clean_market_idempotent (df out : MarketFrame)
    (hc : clean_and_save_market_data df = some out) (hne : out ≠ [])
    (hcont : hourlyContiguous (keys out)) :
    clean_and_save_market_data out = some out := by
  have hfilters := clean_market_mem_filters hc
  have hsome : ∀ r ∈ out, r.2.isSome := by
    intro r hr
    obtain ⟨b, hb, -⟩ := row_valid_of_filters (hfilters r hr).1 (hfilters r hr).2
    simp [hb]
  have hnd : (keys out).Nodup := by
    have := contiguous_eq_range' (keys out) hcont
    rw [this]
    exact List.nodup_range' _ _
  rw [clean_market_some_iff]
  refine ⟨hne, hnd, ?_⟩
  rw [reindex_ffill_contiguous out hne hcont hsome, dedupKeepFirst_eq_self _ hnd,
    List.filter_eq_self.mpr fun r hr => (hfilters r hr).1,
    List.filter_eq_self.mpr fun r hr => (hfilters r hr).2]

/-- Witness for C3 at a concrete two-hour series. -/
theorem C3_clean_market_idempotent_witness :
    clean_and_save_market_data [(0, some goodBar), (1, some goodBar)] =
      some [(0, some goodBar), (1, some goodBar)] :=
  C3_clean_market_idempotent [(0, some goodBar), (1, some goodBar)]
    [(0, some goodBar), (1, some goodBar)] (by decide) (by decide) (by decide)

/-! ## Claim C9 — duplicates fail reindexing; dedup removes nothing -/

/-- Claim C9: a duplicated timestamp index makes the reindex step raise (the
whole cleaning returns no output), and on every input that completes, the
duplicate-removal step keeps the reindexed series unchanged. -/
theorem C9_dup_reindex_raises (df : MarketFrame) :
    (¬ (keys df).Nodup → clean_and_save_market_data df = none) ∧
      (∀ out, clean_and_save_market_data df = some out →
        dedupKeepFirst (reindex_ffill df) = reindex_ffill df) := by
  constructor
  · intro hdup
    unfold clean_and_save_market_data reindexStep?
    rcases hdf : df.isEmpty with _ | _
    · simp [hdup]
    · simp
  · intro out hc
    obtain ⟨lo, n, hk⟩ := keys_reindex_ffill df
    exact dedupKeepFirst_eq_self _ (by rw [hk]; exact List.nodup_range' _ _)

/-- Witness for C9: a duplicated two-row series is rejected, and on a series
that completes the dedup step is the identity. -/
theorem C9_dup_reindex_raises_witness :
    clean_and_save_market_data [(0, some goodBar), (0, some goodBar)] = none ∧
      dedupKeepFirst (reindex_ffill gapInput) = reindex_ffill gapInput :=
  ⟨(C9_dup_reindex_raises [(0, some goodBar), (0, some goodBar)]).1 (by decide),
    (C9_dup_reindex_raises gapInput).2 gapOutput (by decide)⟩

/-! ## Lemmas about the sweep's series operators -/

theorem join_eq_getD {α : Type} (o : Option (Option α)) : o.join = o.getD none := by
  cases o <;> rfl

theorem cell_eq_getD (s : List (Option Rat)) (i : Nat) : cell s i = s.getD i none := by
  rw [cell, List.getD_eq_getElem?_getD, join_eq_getD, List.get?_eq_getElem?]

theorem getD_range_map {α : Type} (n : Nat) (f : Nat → α) (t : Nat) (d : α) :
    ((List.range n).map f).getD t d = if t < n then f t else d := by
  rw [List.getD_eq_getElem?_getD, List.getElem?_map]
  by_cases h : t < n
  · rw [List.getElem?_range h]
    simp [h]
  · rw [List.getElem?_eq_none (by simpa [Nat.not_lt] using h)]
    simp [h]

theorem length_pct_change (H : Nat) (p : List (Option Rat)) :
    (pct_change H p).length = p.length := by
  simp [pct_change]

theorem cell_pct_change (H : Nat) (p : List (Option Rat)) (i : Nat) (hi : H ≤ i) :
    cell (pct_change H p) i =
      match cell p (i - H), cell p i with
      | some a, some b => some ((b - a) / a)
      | _, _ => none := by
  rw [cell, pct_change, List.get?_eq_getElem?]
  by_cases h : i < p.length
  · rw [List.getElem?_map, List.getElem?_range h]
    simp only [Option.map_some', hi, if_true]
    rfl
  · rw [List.getElem?_map, List.getElem?_eq_none (by simpa [List.length_range, Nat.not_lt] using h)]
    have hcell : cell p i = none := by
      rw [cell, List.get?_eq_getElem?, List.getElem?_eq_none (by omega)]
      rfl
    rw [hcell]
    rcases cell p (i - H) with _ | a <;> rfl

theorem C5_future_return_eq (p : List (Option Rat)) (H t : Nat) :
    (future_return H p).getD t none =
      match p.getD t none, p.getD (t + H) none with
      | some a, some b => some ((b - a) / a)
      | _, _ => none := by
  rw [future_return, shiftBack, getD_range_map]
  by_cases ht : t < (pct_change H p).length
  · rw [if_pos ht, cell_pct_change H p (t + H) (Nat.le_add_left _ _), Nat.add_sub_cancel,
      cell_eq_getD, cell_eq_getD]
  · rw [if_neg ht]
    rw [length_pct_change] at ht
    have h1 : p.getD t none = none := by
      rw [List.getD_eq_getElem?_getD, List.getElem?_eq_none (by omega)]
      rfl
    have h2 : p.getD (t + H) none = none := by
      rw [List.getD_eq_getElem?_getD, List.getElem?_eq_none (by omega)]
      rfl
    rw [h1, h2]

theorem range'_filterMap_cell : ∀ (n : Nat) (s : List (Option Rat)) (a : Nat),
    a + n ≤ s.length →
      ((List.range' a n).filterMap fun j => cell s j) = ((s.drop a).take n).filterMap id
  | 0, _, _, _ => by simp
  | n + 1, s, a, hle => by
      have ha : a < s.length := by omega
      rw [List.range'_succ, List.drop_eq_getElem_cons ha]
      have hcell : cell s a = s[a] := by
        rw [cell]
        simp [List.getElem?_eq_getElem ha]
      have ih := range'_filterMap_cell n s (a + 1) (by omega)
      rcases hsa : s[a] with _ | x
      · simp only [List.filterMap_cons, hcell, hsa, id, List.take_succ_cons]
        exact ih
      · simp only [List.filterMap_cons, hcell, hsa, id, List.take_succ_cons]
        rw [ih]

theorem C5_rolling_eq (s : List (Option Rat)) (W t : Nat) (ht : t < s.length) :
    (rollingMeanMin1 W s).getD t none =
      (fun vals => if vals.isEmpty then none else some (vals.sum / (vals.length : Rat)))
        (((s.take (t + 1)).drop (t + 1 - W)).filterMap id) := by
  rw [rollingMeanMin1, getD_range_map, if_pos ht]
  rw [List.drop_take]
  have harg : t + 1 - (t + 1 - W) = min W (t + 1) := by omega
  rw [harg]
  rw [← range'_filterMap_cell (min W (t + 1)) s (t + 1 - W) (by omega)]

theorem C5_shiftFwd_eq (xs : List (Option Rat)) (L t : Nat) (ht : t < xs.length) :
    (shiftFwd L xs).getD t none = if L ≤ t then xs.getD (t - L) none else none := by
  rw [shiftFwd, getD_range_map, if_pos ht]
  by_cases hL : L ≤ t
  · rw [if_pos hL, if_pos hL, cell_eq_getD]
  · rw [if_neg hL, if_neg hL]

/-! ## Claim C5 — sweep feature semantics -/

/-- Claim C5: the sweep's derived series have the specified pointwise
semantics. At every position `t`: `future_return(H)` is the percent change of
the price from `t` to `t+H` aligned back to `t` (NaN when either endpoint is
missing); `rolling_sentiment(W)` is the mean of the defined sentiment values
in the trailing window of up to `W` hours ending at `t`, defined as soon as
the window holds one observation; and the lagged feature at `t` is the
rolling value at `t - L` (NaN for `t < L`). -/
theorem C5_sweep_feature_semantics (p s xs : List (Option Rat)) (H W L t : Nat) :
    ((future_return H p).getD t none =
        match p.getD t none, p.getD (t + H) none with
        | some a, some b => some ((b - a) / a)
        | _, _ => none) ∧
      (t < s.length →
        (rollingMeanMin1 W s).getD t none =
          (fun vals => if vals.isEmpty then none else some (vals.sum / (vals.length : Rat)))
            (((s.take (t + 1)).drop (t + 1 - W)).filterMap id)) ∧
      (t < xs.length →
        (shiftFwd L xs).getD t none = if L ≤ t then xs.getD (t - L) none else none) :=
  ⟨C5_future_return_eq p H t, C5_rolling_eq s W t, C5_shiftFwd_eq xs L t⟩

/-- Witness for C5 at position 1 of three-element series: the future return is
`(4-2)/2 = 1`, the two-hour rolling mean is `(1+3)/2 = 2`, and the lag-1
feature picks up position 0. -/
theorem C5_sweep_feature_semantics_witness :
    (future_return 1 [some (1 : Rat), some 2, some 4]).getD 1 none = some 1 ∧
      (rollingMeanMin1 2 [some (1 : Rat), some 3, none]).getD 1 none = some 2 ∧
      (shiftFwd 1 [some (5 : Rat), some 6, some 7]).getD 1 none = some 5 := by
  obtain ⟨h1, h2, h3⟩ :=
    C5_sweep_feature_semantics [some (1 : Rat), some 2, some 4] [some (1 : Rat), some 3, none]
      [some (5 : Rat), some 6, some 7] 1 2 1 1
  refine ⟨?_, ?_, ?_⟩
  · rw [h1]
    norm_num
  · rw [h2 (by decide)]
    have harg :
        List.filterMap id
            (List.drop (1 + 1 - 2) (List.take (1 + 1) [some (1 : Rat), some 3, none])) =
          [1, 3] := by decide
    rw [harg]
    norm_num
  · rw [h3 (by decide)]
    decide

/-! ## Claim C4 — sample-size gate of the sweep -/

/-- Claim C4: for every grid point (asset, horizon, window, lag), the sweep
emits a result row if and only if at least 50 paired (lagged feature, future
return) observations survive the NaN drop; below 50 the point contributes no
row, whatever the external statistics functions return. -/
theorem C4_sample_size_gate (pearsonr spearmanr : List (Rat × Rat) → Rat × Rat)
    (cols : MasterCols) (c : String) (H W L : Nat)
    (hc : c ∈ ["btc", "eth"]) (hH : H ∈ PRICE_HORIZONS) (hW : W ∈ SENTIMENT_WINDOWS)
    (hL : L ∈ LAGS) :
    (∃ r ∈ run_correlation_sweep pearsonr spearmanr cols,
        r.crypto = c ∧ r.price_horizon_h = H ∧ r.sentiment_window_h = W ∧ r.lag_h = L) ↔
      50 ≤ (pairedSample cols c H W L).length := by
  unfold run_correlation_sweep
  simp only [List.mem_flatMap, List.mem_filterMap]
  constructor
  · rintro ⟨r, ⟨c', hc', h', hh', w', hw', l', hl', hrow⟩, hcr, hHr, hWr, hLr⟩
    by_cases hlen : (pairedSample cols c' h' w' l').length < 50
    · rw [if_pos hlen] at hrow
      exact absurd hrow (by simp)
    · rw [if_neg hlen] at hrow
      obtain rfl := Option.some_inj.mp hrow
      subst hcr hHr hWr hLr
      exact Nat.le_of_not_lt hlen
  · intro hge
    have hlen : ¬ (pairedSample cols c H W L).length < 50 := Nat.not_lt.mpr hge
    refine
      ⟨{ crypto := c, price_horizon_h := H, sentiment_window_h := W, lag_h := L,
          pearson_corr := (pearsonr (pairedSample cols c H W L)).1,
          pearson_p_value := (pearsonr (pairedSample cols c H W L)).2,
          spearman_corr := (spearmanr (pairedSample cols c H W L)).1,
          spearman_p_value := (spearmanr (pairedSample cols c H W L)).2,
          n_observations := (pairedSample cols c H W L).length },
        ⟨c, hc, H, hH, W, hW, L, hL, ?_⟩, rfl, rfl, rfl, rfl⟩
    rw [if_neg hlen]

/-- Witness for C4 at the grid point (btc, H=1, W=1, L=0) of a 60-hour flat
master table: 59 paired observations survive, so the iff holds with both
sides true. -/
theorem C4_sample_size_gate_witness :
    (∃ r ∈ run_correlation_sweep (fun _ => (0, 0)) (fun _ => (0, 0))
        ⟨List.replicate 60 (some 1), List.replicate 60 (some 1),
          List.replicate 60 (some 0), List.replicate 60 (some 0)⟩,
        r.crypto = "btc" ∧ r.price_horizon_h = 1 ∧ r.sentiment_window_h = 1 ∧ r.lag_h = 0) ↔
      50 ≤ (pairedSample
          ⟨List.replicate 60 (some 1), List.replicate 60 (some 1),
            List.replicate 60 (some 0), List.replicate 60 (some 0)⟩ "btc" 1 1 0).length :=
  C4_sample_size_gate (fun _ => (0, 0)) (fun _ => (0, 0)) _ "btc" 1 1 0 (by decide) (by decide)
    (by decide) (by decide)

/-! ## Claim C6 — post cleaner rules -/

theorem isRemovedBody_eq_false_iff (body : Option String) :
    isRemovedBody body = false ↔ body ≠ some "[removed]" ∧ body ≠ some "[deleted]" := by
  cases body <;> simp [isRemovedBody]

theorem containsUrl_eq_false_iff (p : RedditPost) :
    containsUrl p = false ↔
      containsCI "http" p.title = false ∧ containsCI "http" (p.body.getD "") = false := by
  simp [containsUrl]

/-- Claim C6 counterexample: the removed/deleted filter is not a
case-insensitive substring test. The body "[Removed]" case-insensitively
contains the sentinel, yet the coded exact `isin` test retains the post. -/
theorem C6_counterexample_sentinel_case :
    clean_and_save_reddit_data [postRemovedMixedCase] = [postRemovedMixedCase] ∧
      containsCI "[removed]" ((postRemovedMixedCase.body).getD "") = true := by
  exact ⟨by decide, by decide⟩

/-- Claim C6 (amended): the cleaner first drops posts whose body is *exactly*
(case-sensitively) "[removed]" or "[deleted]" — an absent body never matches —
then drops posts whose title or body (absent treated as empty) contains
"http" case-insensitively; a post survives iff it passes both. The three
concrete examples hold as claimed. -/
theorem C6_reddit_cleaner_rules (posts : List RedditPost) (p : RedditPost) :
    (p ∈ clean_and_save_reddit_data posts ↔
        p ∈ posts ∧ (p.body ≠ some "[removed]" ∧ p.body ≠ some "[deleted]") ∧
          containsCI "http" p.title = false ∧ containsCI "http" (p.body.getD "") = false) ∧
      clean_and_save_reddit_data [postRemoved] = [] ∧
      clean_and_save_reddit_data [postUrl] = [] ∧
      clean_and_save_reddit_data [postClean] = [postClean] := by
  refine ⟨?_, by decide, by decide, by decide⟩
  unfold clean_and_save_reddit_data
  simp only [List.mem_filter, Bool.not_eq_true', and_assoc]
  rw [isRemovedBody_eq_false_iff, containsUrl_eq_false_iff]
  tauto

/-! ## Claim C7 — keyword tagger -/

theorem tagger_foldl (tl : List Char) :
    ∀ (keywords : List (String × List String)) (acc : List String),
      (keywords.foldl
          (fun acc kv => if kv.2.any (fun k => isSubstrChars k.data tl) then acc ++ [kv.1]
            else acc) acc) =
        acc ++ (keywords.filter fun kv => kv.2.any fun k => isSubstrChars k.data tl).map Prod.fst
  | [], acc => by simp
  | kv :: rest, acc => by
      by_cases hkv : kv.2.any (fun k => isSubstrChars k.data tl) = true
      · simp only [List.foldl_cons, List.filter_cons, hkv, if_true]
        rw [tagger_foldl tl rest (acc ++ [kv.1])]
        simp
      · have hkv' : kv.2.any (fun k => isSubstrChars k.data tl) = false := by
          simpa using hkv
        simp only [List.foldl_cons, List.filter_cons, hkv', Bool.false_eq_true, if_false]
        exact tagger_foldl tl rest acc

/-- Claim C7: the tagger returns exactly the symbols, in the mapping's
insertion order, one of whose keywords occurs in the lowercased text, and
returns the `None` sentinel instead of an empty collection when nothing
matches; on the concrete example text it returns ["BTC", "ETH"]. -/
theorem C7_keyword_tagger (text : String) (keywords : List (String × List String)) :
    (get_mentioned_crypto text keywords =
        (fun m => if m = [] then none else some m)
          ((keywords.filter fun kv => kv.2.any fun k =>
              isSubstrChars k.data (lowerChars text)).map Prod.fst)) ∧
      get_mentioned_crypto "Bitcoin is rising while ETH falls" KEYWORDS = some ["BTC", "ETH"] := by
  refine ⟨?_, by decide⟩
  show (let text_lower := lowerChars text
    let mentioned := keywords.foldl
      (fun acc kv => if kv.2.any (fun k => isSubstrChars k.data text_lower) then acc ++ [kv.1]
        else acc) []
    if mentioned.isEmpty then none else some mentioned) = _
  simp only []
  rw [tagger_foldl (lowerChars text) keywords []]
  by_cases hm :
      (keywords.filter fun kv => kv.2.any fun k =>
          isSubstrChars k.data (lowerChars text)).map Prod.fst = []
  · simp [hm]
  · simp [hm, List.isEmpty_iff]

/-! ## Claim C8 — missing-input behaviour of the analyze stage -/

/-- Claim C8 is contradicted by the code: with the master file absent, the
correlation stage raises out of `pd.read_parquet` instead of reporting and
returning, while (for contrast) the market cleaning stage's guard skips
gracefully on its own missing input. -/
theorem C8_analyze_missing_input_raises :
    run_correlation_sweep_stage (fun _ => (0, 0)) (fun _ => (0, 0)) (fun _ => none)
        "data/master/master_data.parquet" = (StageResult.raised, none) ∧
      clean_market_stage (fun _ => none) "data/raw/btc_usd_market_data.parquet" =
        StageResult.skipped :=
  ⟨rfl, rfl⟩

/-! ## Claim C10 — unrecognised stage names -/

/-- Claim C10: invoking the entry point with a non-empty argument list none of
whose entries is a recognised stage name runs no stage (hence writes nothing)
and reports nothing: unknown names are silently ignored. -/
theorem C10_unknown_stages_ignored (stages : List String) (hne : stages ≠ [])
    (hno : ∀ s ∈ stages, s ∉ pipelineStageNames) :
    main stages = [] := by
  unfold main
  have hra : stages.isEmpty = false := by simpa [List.isEmpty_iff] using hne
  rw [hra]
  rw [List.filter_eq_nil_iff]
  intro s hs
  simp only [Bool.false_or]
  intro hx
  exact hno s (by simpa using hx) hs

/-- Witness for C10: the single unknown stage name "fetch" runs nothing. -/
theorem C10_unknown_stages_ignored_witness : main ["fetch"] = [] :=
  C10_unknown_stages_ignored ["fetch"] (by decide) (by decide)

/-! ## Lemmas about the unifier -/

theorem min?_le_of_mem {l : List Nat} {a x : Nat} (h : l.min? = some a) (hx : x ∈ l) :
    a ≤ x := by
  rw [List.min?_eq_some_iff (fun a => Nat.le_refl a)
    (fun a b => (Nat.le_total a b).imp Nat.min_eq_left Nat.min_eq_right)
    (fun a b c => Nat.le_min)] at h
  exact h.2 x hx

theorem le_max?_of_mem {l : List Nat} {a x : Nat} (h : l.max? = some a) (hx : x ∈ l) :
    x ≤ a := by
  rw [List.max?_eq_some_iff (fun a => Nat.le_refl a)
    (fun a b => (Nat.le_total b a).imp (fun h => Nat.max_eq_left h) fun h => Nat.max_eq_right h)
    (fun a b c => Nat.max_le)] at h
  exact h.2 x hx

theorem sentCellFilled_eq_spec (posts : List ScoredPost) (c : String) (h : Nat) :
    sentCellFilled posts c h = specSentimentAggregate posts c h := by
  unfold sentCellFilled aggCell specSentimentAggregate
  rcases hmin : ((cryptoRows posts c).map fun r => r.2.1).min? with _ | lo
  · have hrows : cryptoRows posts c = [] := by
      simpa [List.min?_eq_none_iff] using hmin
    simp [hourRows, hrows]
  rcases hmax : ((cryptoRows posts c).map fun r => r.2.1).max? with _ | hi
  · have hrows : cryptoRows posts c = [] := by
      simpa [List.max?_eq_none_iff] using hmax
    rw [hrows] at hmin
    exact absurd hmin (by simp)
  simp only [hmin, hmax]
  by_cases hspan : lo ≤ h ∧ h ≤ hi
  · rw [if_pos hspan]
    by_cases hg : (hourRows posts c h).isEmpty
    · have hg' : hourRows posts c h = [] := by simpa [List.isEmpty_iff] using hg
      simp [hg', hg]
    · simp [hg]
  · rw [if_neg hspan]
    have hg : hourRows posts c h = [] := by
      rcases hne : hourRows posts c h with _ | ⟨r, rest⟩
      · rfl
      · exfalso
        have hrmem : r ∈ hourRows posts c h := by rw [hne]; exact List.mem_cons_self _ _
        have hr : r ∈ cryptoRows posts c ∧ (r.2.1 == h) = true := by
          have := hrmem
          rw [hourRows] at this
          exact List.mem_filter.mp this
        have hh : r.2.1 = h := by simpa using hr.2
        have hhmem : h ∈ (cryptoRows posts c).map fun r => r.2.1 := by
          rw [List.mem_map]
          exact ⟨r, hr.1, hh⟩
        exact hspan ⟨min?_le_of_mem hmin hhmem, le_max?_of_mem hmax hhmem⟩
    simp [hg]

theorem keys_mergeOuter_nil (es : List (Nat × Bar)) :
    keys (mergeOuter [] es) = keys es := by
  simp [mergeOuter, keys, List.map_map]

theorem mem_keys_mergeOuter : ∀ (bs es : List (Nat × Bar)) (k : Nat),
    k ∈ keys (mergeOuter bs es) → k ∈ keys bs ∨ k ∈ keys es
  | [], es, k, hk => Or.inr (by rwa [keys_mergeOuter_nil] at hk)
  | b :: bs', es, k, hk => by
      simp only [mergeOuter, keys, List.map_append, List.map_cons, List.mem_append,
        List.mem_cons, List.map_map, List.mem_map, Function.comp] at hk
      rcases hk with ⟨e, he, rfl⟩ | rfl | hk
      · exact Or.inr (List.mem_map.mpr ⟨e, (List.mem_filter.mp he).1, rfl⟩)
      · exact Or.inl (by simp [keys])
      · have := mem_keys_mergeOuter bs' (es.filter fun e => decide (b.1 < e.1)) k
          (by simpa [keys] using hk)
        rcases this with h1 | h2
        · exact Or.inl (by simp [keys] at h1 ⊢; exact Or.inr h1)
        · rcases List.mem_map.mp h2 with ⟨e, he, rfl⟩
          exact Or.inr (List.mem_map.mpr ⟨e, (List.mem_filter.mp he).1, rfl⟩)

theorem keys_mergeOuter_sorted : ∀ (bs es : List (Nat × Bar)),
    (keys bs).Pairwise (· < ·) → (keys es).Pairwise (· < ·) →
      (keys (mergeOuter bs es)).Pairwise (· < ·)
  | [], es, _, he => by rwa [keys_mergeOuter_nil]
  | b :: bs', es, hb, he => by
      have hbtail : (keys bs').Pairwise (· < ·) := (List.pairwise_cons.mp hb).2
      have hbhead : ∀ y ∈ keys bs', b.1 < y := (List.pairwise_cons.mp hb).1
      have hfq : (keys (es.filter fun e => decide (b.1 < e.1))).Pairwise (· < ·) :=
        List.Pairwise.sublist (List.Sublist.map _ (List.filter_sublist es)) he
      have hrec := keys_mergeOuter_sorted bs' (es.filter fun e => decide (b.1 < e.1)) hbtail hfq
      simp only [mergeOuter, keys, List.map_append, List.map_cons, List.map_map]
      rw [List.pairwise_append]
      refine ⟨?_, ?_, ?_⟩
      · exact List.Pairwise.sublist
          (List.Sublist.map _ (List.filter_sublist es)) (by simpa [keys] using he)
      · rw [List.pairwise_cons]
        refine ⟨fun y hy => ?_, by simpa [keys] using hrec⟩
        have hy' : y ∈ keys (mergeOuter bs' (es.filter fun e => decide (b.1 < e.1))) := by
          simpa [keys] using hy
        rcases mem_keys_mergeOuter _ _ _ hy' with h1 | h2
        · exact hbhead y h1
        · rcases List.mem_map.mp h2 with ⟨e, he', rfl⟩
          exact of_decide_eq_true (List.mem_filter.mp he').2
      · intro x hx y hy
        rcases List.mem_map.mp hx with ⟨e, he', rfl⟩
        have hxlt : e.1 < b.1 := by
          have := (List.mem_filter.mp he').2
          exact of_decide_eq_true (by simpa using this)
        rcases List.mem_cons.mp hy with rfl | hy'
        · exact hxlt
        · have hy'' : y ∈ keys (mergeOuter bs' (es.filter fun e => decide (b.1 < e.1))) := by
            simpa [keys] using hy'
          rcases mem_keys_mergeOuter _ _ _ hy'' with h1 | h2
          · exact hxlt.trans (hbhead y h1)
          · rcases List.mem_map.mp h2 with ⟨e2, he2, rfl⟩
            exact hxlt.trans (of_decide_eq_true (List.mem_filter.mp he2).2)

theorem mergeOuter_mem_left : ∀ (bs es : List (Nat × Bar)) (r : Nat × Bar), r ∈ bs →
    ∃ e, (r.1, some r.2, e) ∈ mergeOuter bs es
  | [], _, _, hr => absurd hr (List.not_mem_nil _)
  | b :: bs', es, r, hr => by
      rcases List.mem_cons.mp hr with rfl | hr'
      · exact ⟨(es.find? fun e => e.1 == r.1).map Prod.snd,
          by simp [mergeOuter]⟩
      · obtain ⟨e, he⟩ := mergeOuter_mem_left bs' (es.filter fun e => decide (b.1 < e.1)) r hr'
        exact ⟨e, by simp only [mergeOuter, List.mem_append, List.mem_cons]; tauto⟩

theorem find?_key_of_pairwise : ∀ (es : List (Nat × Bar)) (r : Nat × Bar),
    (keys es).Pairwise (· < ·) → r ∈ es → (es.find? fun e => e.1 == r.1) = some r
  | [], _, _, hr => absurd hr (List.not_mem_nil _)
  | e0 :: es', r, hp, hr => by
      rcases List.mem_cons.mp hr with rfl | hr'
      · simp [List.find?_cons]
      · have hlt : e0.1 < r.1 := (List.pairwise_cons.mp (by simpa [keys] using hp)).1 r.1
          (List.mem_map.mpr ⟨r, hr', rfl⟩)
        have hne : (e0.1 == r.1) = false := by simpa using Nat.ne_of_lt hlt
        rw [List.find?_cons, hne]
        have htail : (keys es').Pairwise (· < ·) := by
          have h := hp
          simp only [keys, List.map_cons, List.pairwise_cons] at h
          simpa [keys] using h.2
        exact find?_key_of_pairwise es' r htail hr'

theorem mergeOuter_mem_right : ∀ (bs es : List (Nat × Bar)) (r : Nat × Bar),
    (keys bs).Pairwise (· < ·) → (keys es).Pairwise (· < ·) → r ∈ es →
      ∃ bv, (r.1, bv, some r.2) ∈ mergeOuter bs es
  | [], es, r, _, _, hr =>
      ⟨none, show (r.1, none, some r.2) ∈ es.map fun e => (e.1, none, some e.2) from
        List.mem_map.mpr ⟨r, hr, rfl⟩⟩
  | b :: bs', es, r, hb, he, hr => by
      rcases Nat.lt_trichotomy r.1 b.1 with hlt | heq | hgt
      · refine ⟨none, ?_⟩
        simp only [mergeOuter, List.mem_append, List.mem_cons]
        exact Or.inl (List.mem_map.mpr ⟨r, List.mem_filter.mpr ⟨hr, by simpa using hlt⟩, rfl⟩)
      · refine ⟨some b.2, ?_⟩
        simp only [mergeOuter, List.mem_append, List.mem_cons]
        have hfind : (es.find? fun e => e.1 == b.1) = some r := by
          rw [← heq]
          exact find?_key_of_pairwise es r he hr
        right; left
        rw [hfind, heq]
        rfl
      · have hbtail : (keys bs').Pairwise (· < ·) := (List.pairwise_cons.mp hb).2
        have hfq : (keys (es.filter fun e => decide (b.1 < e.1))).Pairwise (· < ·) :=
          List.Pairwise.sublist (List.Sublist.map _ (List.filter_sublist es)) he
        obtain ⟨bv, hbv⟩ := mergeOuter_mem_right bs' (es.filter fun e => decide (b.1 < e.1)) r
          hbtail hfq (List.mem_filter.mpr ⟨hr, by simpa using hgt⟩)
        exact ⟨bv, by simp only [mergeOuter, List.mem_append, List.mem_cons]; tauto⟩

theorem keys_joinSentiment (posts : List ScoredPost)
    (m : List (Nat × Option Bar × Option Bar)) : keys (joinSentiment posts m) = keys m := by
  simp [joinSentiment, keys, List.map_map, mkMasterRow]

theorem ffillMaster_get?_sent :
    ∀ (l : List (Nat × MasterRow)) (lb le : Option Bar) (i : Nat),
      ((ffillMaster lb le l).get? i).map (fun p =>
          (p.1, p.2.btc_sentiment_mean, p.2.btc_post_count, p.2.eth_sentiment_mean,
            p.2.eth_post_count)) =
        (l.get? i).map fun p =>
          (p.1, p.2.btc_sentiment_mean, p.2.btc_post_count, p.2.eth_sentiment_mean,
            p.2.eth_post_count)
  | [], _, _, _ => rfl
  | (_, _) :: _, _, _, 0 => rfl
  | (_, _) :: rest, _, _, (i + 1) => ffillMaster_get?_sent rest _ _ i

theorem ffillMaster_btc_some :
    ∀ (l : List (Nat × MasterRow)) (lb le : Option Bar) (i : Nat) (h : Nat) (row : MasterRow),
      (ffillMaster lb le l).get? i = some (h, row) →
      (lb ≠ none ∨ ∃ j, j ≤ i ∧ ∃ p : Nat × MasterRow, l.get? j = some p ∧ p.2.btc ≠ none) →
      row.btc ≠ none
  | [], _, _, i, _, _, hget, _ => by simp [ffillMaster] at hget
  | (h0, row0) :: rest, lb, le, 0, h, row, hget, hyp => by
      simp only [ffillMaster, List.get?] at hget
      obtain ⟨-, hrow⟩ := Prod.mk.injEq .. ▸ Option.some_inj.mp hget
      rcases hb : row0.btc with _ | x
      · have hlb : lb ≠ none := by
          rcases hyp with hlb | ⟨j, hj, p, hp, hpb⟩
          · exact hlb
          · interval_cases j
            simp only [List.get?] at hp
            obtain rfl := Option.some_inj.mp hp
            exact absurd hb hpb
        rw [← hrow]
        simpa [hb] using hlb
      · rw [← hrow]
        simp [hb]
  | (h0, row0) :: rest, lb, le, (i + 1), h, row, hget, hyp => by
      simp only [ffillMaster, List.get?] at hget
      refine ffillMaster_btc_some rest _ _ i h row hget ?_
      rcases hb : row0.btc with _ | x
      · rcases hyp with hlb | ⟨j, hj, p, hp, hpb⟩
        · exact Or.inl (by simpa [hb] using hlb)
        · rcases j with _ | j'
          · simp only [List.get?] at hp
            obtain rfl := Option.some_inj.mp hp
            exact absurd hb hpb
          · exact Or.inr ⟨j', Nat.le_of_succ_le_succ hj, p, hp, hpb⟩
      · exact Or.inl (by simp [hb])

theorem ffillMaster_eth_some :
    ∀ (l : List (Nat × MasterRow)) (lb le : Option Bar) (i : Nat) (h : Nat) (row : MasterRow),
      (ffillMaster lb le l).get? i = some (h, row) →
      (le ≠ none ∨ ∃ j, j ≤ i ∧ ∃ p : Nat × MasterRow, l.get? j = some p ∧ p.2.eth ≠ none) →
      row.eth ≠ none
  | [], _, _, i, _, _, hget, _ => by simp [ffillMaster] at hget
  | (h0, row0) :: rest, lb, le, 0, h, row, hget, hyp => by
      simp only [ffillMaster, List.get?] at hget
      obtain ⟨-, hrow⟩ := Prod.mk.injEq .. ▸ Option.some_inj.mp hget
      rcases hb : row0.eth with _ | x
      · have hle : le ≠ none := by
          rcases hyp with hle | ⟨j, hj, p, hp, hpb⟩
          · exact hle
          · interval_cases j
            simp only [List.get?] at hp
            obtain rfl := Option.some_inj.mp hp
            exact absurd hb hpb
        rw [← hrow]
        simpa [hb] using hle
      · rw [← hrow]
        simp [hb]
  | (h0, row0) :: rest, lb, le, (i + 1), h, row, hget, hyp => by
      simp only [ffillMaster, List.get?] at hget
      refine ffillMaster_eth_some rest _ _ i h row hget ?_
      rcases hb : row0.eth with _ | x
      · rcases hyp with hle | ⟨j, hj, p, hp, hpb⟩
        · exact Or.inl (by simpa [hb] using hle)
        · rcases j with _ | j'
          · simp only [List.get?] at hp
            obtain rfl := Option.some_inj.mp hp
            exact absurd hb hpb
          · exact Or.inr ⟨j', Nat.le_of_succ_le_succ hj, p, hp, hpb⟩
      · exact Or.inl (by simp [hb])

theorem get?_key_le {α : Type} (l : List (Nat × α)) (hp : (keys l).Pairwise (· < ·))
    {i j : Nat} {p q : Nat × α} (hi : l.get? i = some p) (hj : l.get? j = some q)
    (hk : q.1 ≤ p.1) : j ≤ i := by
  by_contra hx
  have hij : i < j := Nat.lt_of_not_le hx
  obtain ⟨hi', hig⟩ := List.get?_eq_some.mp hi
  obtain ⟨hj', hjg⟩ := List.get?_eq_some.mp hj
  have hkey := List.pairwise_iff_get.mp hp ⟨i, by simpa [keys] using hi'⟩
    ⟨j, by simpa [keys] using hj'⟩ hij
  have hgi : (keys l).get ⟨i, by simpa [keys] using hi'⟩ = p.1 := by
    simp only [keys, List.get_map, hig]
  have hgj : (keys l).get ⟨j, by simpa [keys] using hj'⟩ = q.1 := by
    simp only [keys, List.get_map, hjg]
  rw [hgi, hgj] at hkey
  omega

/-! ## Claim C1 — master table invariants -/

/-- Claim C1 counterexample: with btc covering hours 0-1 but eth starting only
at hour 1, the master row at hour 0 has a null eth price (forward fill has
nothing to carry), although eth is present in the inputs. -/
theorem C1_counterexample_leading_null_price :
    ((unify_and_save_data lateBtc lateEth latePosts).get? 0).map (fun r => (r.1, r.2.eth)) =
      some (0, none) ∧ lateEth ≠ [] := by
  exact ⟨by decide, by decide⟩

/-- Claim C1 (amended): in every master row, each asset's sentiment/post-count
pair is exactly the real per-hour aggregate of that asset's exploded posts or
zero when there are none; each asset's price is non-null at every hour at or
after that asset's earliest price timestamp — rows before an asset's first
observation (possible when the assets' histories do not overlap) keep a null
price for that asset, as the counterexample shows. The hours-0-10 example
holds as claimed: 11 rows, never-null prices, sentiment zero except at hours
2 and 7. -/
theorem C1_unify_master_table (btc_df eth_df : List (Nat × Bar)) (posts : List ScoredPost)
    (hb : (keys btc_df).Pairwise (· < ·)) (he : (keys eth_df).Pairwise (· < ·)) :
    (∀ i h row, (unify_and_save_data btc_df eth_df posts).get? i = some (h, row) →
      ((row.btc_sentiment_mean, row.btc_post_count) = specSentimentAggregate posts "BTC" h ∧
        (row.eth_sentiment_mean, row.eth_post_count) = specSentimentAggregate posts "ETH" h) ∧
      ((∃ kb ∈ keys btc_df, kb ≤ h) → row.btc ≠ none) ∧
      ((∃ ke ∈ keys eth_df, ke ≤ h) → row.eth ≠ none)) ∧
    ((unify_and_save_data exSeries11 exSeries11 exPosts27).map fun r =>
        (r.1, r.2.btc.isSome, r.2.eth.isSome, r.2.btc_sentiment_mean, r.2.btc_post_count,
          r.2.eth_sentiment_mean, r.2.eth_post_count)) =
      [(0, true, true, 0, 0, 0, 0), (1, true, true, 0, 0, 0, 0),
        (2, true, true, 1/2, 1, 1/2, 1), (3, true, true, 0, 0, 0, 0),
        (4, true, true, 0, 0, 0, 0), (5, true, true, 0, 0, 0, 0),
        (6, true, true, 0, 0, 0, 0), (7, true, true, -1/4, 1, -1/4, 1),
        (8, true, true, 0, 0, 0, 0), (9, true, true, 0, 0, 0, 0),
        (10, true, true, 0, 0, 0, 0)] := by
  constructor
  · intro i h row hget
    unfold unify_and_save_data at hget
    have hjoin : ∀ j, (joinSentiment posts (mergeOuter btc_df eth_df)).get? j =
        ((mergeOuter btc_df eth_df).get? j).map (mkMasterRow posts) := by
      intro j
      rw [joinSentiment, List.get?_eq_getElem?, List.getElem?_map, ← List.get?_eq_getElem?]
    have hsent := ffillMaster_get?_sent
      (joinSentiment posts (mergeOuter btc_df eth_df)) none none i
    rw [hget, hjoin i] at hsent
    rcases hmr : (mergeOuter btc_df eth_df).get? i with _ | mr
    · rw [hmr] at hsent
      exact absurd hsent (by simp)
    rw [hmr] at hsent
    simp only [Option.map_some', mkMasterRow, Option.some_inj, Prod.mk.injEq] at hsent
    obtain ⟨hh, hs1, hs2, hs3, hs4⟩ := hsent
    have hsorted := keys_mergeOuter_sorted btc_df eth_df hb he
    refine ⟨⟨?_, ?_⟩, ?_, ?_⟩
    · rw [hs1, hs2, hh, ← sentCellFilled_eq_spec]
    · rw [hs3, hs4, hh, ← sentCellFilled_eq_spec]
    · rintro ⟨kb, hkb, hkbh⟩
      obtain ⟨pb, hpb, hpbk⟩ := List.mem_map.mp hkb
      obtain ⟨e, hme⟩ := mergeOuter_mem_left btc_df eth_df pb hpb
      obtain ⟨j, hj⟩ := List.mem_iff_get?.mp hme
      have hjle : j ≤ i := get?_key_le _ hsorted hmr hj
        (by show pb.1 ≤ mr.1; rw [hpbk, ← hh]; exact hkbh)
      refine ffillMaster_btc_some _ none none i h row hget
        (Or.inr ⟨j, hjle, mkMasterRow posts (pb.1, some pb.2, e), ?_, ?_⟩)
      · rw [hjoin j, hj]
        rfl
      · simp [mkMasterRow]
    · rintro ⟨ke, hke, hkeh⟩
      obtain ⟨pe, hpe, hpek⟩ := List.mem_map.mp hke
      obtain ⟨bv, hme⟩ := mergeOuter_mem_right btc_df eth_df pe hb he hpe
      obtain ⟨j, hj⟩ := List.mem_iff_get?.mp hme
      have hjle : j ≤ i := get?_key_le _ hsorted hmr hj
        (by show pe.1 ≤ mr.1; rw [hpek, ← hh]; exact hkeh)
      refine ffillMaster_eth_some _ none none i h row hget
        (Or.inr ⟨j, hjle, mkMasterRow posts (pe.1, bv, some pe.2), ?_, ?_⟩)
      · rw [hjoin j, hj]
        rfl
      · simp [mkMasterRow]
  · norm_num +decide [unify_and_save_data, joinSentiment, mkMasterRow, ffillMaster, mergeOuter,
      sentCellFilled, aggCell, hourRows, cryptoRows, explodeRows, exSeries11, exPosts27,
      flatBar, List.range_succ]

/-- Witness for C1: the amended theorem applied to the concrete two-asset
input with non-overlapping history, projecting its concrete example part. -/
theorem C1_unify_master_table_witness :
    ((unify_and_save_data exSeries11 exSeries11 exPosts27).map fun r =>
        (r.1, r.2.btc.isSome, r.2.eth.isSome, r.2.btc_sentiment_mean, r.2.btc_post_count,
          r.2.eth_sentiment_mean, r.2.eth_post_count)) =
      [(0, true, true, 0, 0, 0, 0), (1, true, true, 0, 0, 0, 0),
        (2, true, true, 1/2, 1, 1/2, 1), (3, true, true, 0, 0, 0, 0),
        (4, true, true, 0, 0, 0, 0), (5, true, true, 0, 0, 0, 0),
        (6, true, true, 0, 0, 0, 0), (7, true, true, -1/4, 1, -1/4, 1),
        (8, true, true, 0, 0, 0, 0), (9, true, true, 0, 0, 0, 0),
        (10, true, true, 0, 0, 0, 0)] :=
  (C1_unify_master_table lateBtc lateEth latePosts (by decide) (by decide)).2

end RedditCrypto
